import Mathlib

/-!
Verification of the `Block` expression of the VRL compiler
(`lib/vrl/compiler/src/expression/block.rs`).

A `Block` is a sequence of child expressions evaluated left to right.  The
single-record backend (`Block::resolve`) short-circuits on the first error
among all children before the last and otherwise returns the last child's
result.  The batch backend (`Block::resolve_batch`) evaluates all children
over a batch of rows, maintaining a shrinking selection vector of still-alive
row indices.  The static pass (`Block::type_def`) folds fallibility and
abortability flags over the children and asserts that no child follows a
"never"-typed (terminating) child.

Child expressions are arbitrary language constructs whose own code is outside
the file under study; they are embedded as records of their three operations
(`resolve`, `resolve_batch`, `type_def`), abstract over a state type `S`
(the single-record context: event record plus variable storage), a value
type `V` and an error type `E`.  A Rust panic is modelled as `Option.none`.
The per-row vectors of a `BatchContext` are modelled as total maps from row
index to slot content.
-/

namespace VrlBlock

/-- Modelled from the spec: the kind component of a `TypeDef` (the set of
possible value shapes).  The claims only distinguish the `null` kind, the
`never` kind (a terminating expression that cannot produce a value) and
everything else, so other kinds are collapsed into a tag. -/
inductive VKind where
  | vnull : VKind
  | never : VKind
  | other : Nat → VKind
deriving DecidableEq, Repr

/-- Modelled from the spec: the statically inferred description of an
expression's result: a kind plus independent `fallible` and `abortable`
boolean flags. -/
structure TypeDef where
  fallible : Bool
  abortable : Bool
  kind : VKind
deriving DecidableEq, Repr

/-- Modelled from the spec: `TypeDef::null()`, an infallible, non-abortable
null type. -/
def TypeDef.null : TypeDef := { fallible := false, abortable := false, kind := .vnull }

/-- Modelled from the spec: `TypeDef::is_never` — whether the expression is a
terminating expression that cannot produce a value. -/
def TypeDef.is_never (t : TypeDef) : Bool := t.kind == .never

/-- Modelled from the spec: `TypeDef::is_fallible`. -/
def TypeDef.is_fallible (t : TypeDef) : Bool := t.fallible

/-- Modelled from the spec: `TypeDef::is_abortable`. -/
def TypeDef.is_abortable (t : TypeDef) : Bool := t.abortable

/-- Modelled from the spec: `TypeDef::with_fallibility`, replacing the
fallibility flag. -/
def TypeDef.with_fallibility (t : TypeDef) (fallible : Bool) : TypeDef :=
  { t with fallible := fallible }

/-- Modelled from the spec: `TypeDef::with_abortability`, replacing the
abortability flag. -/
def TypeDef.with_abortability (t : TypeDef) (abortable : Bool) : TypeDef :=
  { t with abortable := abortable }

/-- The batch-execution context: per-row single-record state (record plus
variable storage) and the per-row resolution slot
(`BatchContext::resolved_values`), both modelled as total maps from the row
index. -/
structure BatchContext (S V E : Type) where
  states : Nat → S
  resolved_values : Nat → Except E V

/-- Modelled from the spec: the `Expression` contract implemented by every
child of a block — a single-record `resolve` (returning the mutated context
and a `Result<Value, Error>`), a batch `resolve_batch` (mutating the batch
context, given a selection vector of row indices), and a pure `type_def`.
Children of a `Block` are arbitrary expressions, so they are kept abstract. -/
structure Expr (S V E : Type) where
  resolve : S → S × Except E V
  resolveBatch : BatchContext S V E → List Nat → BatchContext S V E
  type_def : TypeDef

variable {S V E : Type}

/-- Rust's `slice::split_last`: `some (last, allButLast)` on a non-empty
list, `none` on the empty list. -/
def splitLastE : List α → Option (α × List α)
  | [] => none
  | [a] => some (a, [])
  | a :: b :: rest =>
    (splitLastE (b :: rest)).map (fun p => (p.1, a :: p.2))

/-- The `try_for_each` loop of `Block::resolve` over all children but the
last: thread the context through each child in order, short-circuiting with
the context and error of the first child that fails. -/
def resolveOthers : List (Expr S V E) → S → Except (S × E) S
  | [], s => .ok s
  | e :: rest, s =>
    match e.resolve s with
    | (s', .ok _) => resolveOthers rest s'
    | (s', .error err) => .error (s', err)

/-- Embeds `Block::resolve`: split the children into last and all-but-last
(`split_last().expect("at least one expression")`, a panic — `none` — on an
empty block), run all-but-last in order short-circuiting on the first error,
then return the last child's result. -/
def Block.resolve (inner : List (Expr S V E)) (s : S) : Option (S × Except E V) :=
  match splitLastE inner with
  | none => none
  | some (last, other) =>
    match resolveOthers other s with
    | .error (s', err) => some (s', .error err)
    | .ok s' => some (last.resolve s')

/-- The loop of the multi-child path of `Block::resolve_batch`: for each
child in order, run it on the current-alive buffer `this`, then rebuild the
next buffer by scanning the ORIGINAL `selection_vector` argument `sv` and
keeping the indices whose resolution slot currently holds a success, and
swap.  Returns the final batch context and the final current buffer. -/
def batchLoop : List (Expr S V E) → BatchContext S V E → List Nat → List Nat →
    BatchContext S V E × List Nat
  | [], bctx, _sv, this => (bctx, this)
  | e :: rest, bctx, sv, this =>
    let bctx' := e.resolveBatch bctx this
    let next := sv.filter (fun i => (bctx'.resolved_values i).isOk)
    batchLoop rest bctx' sv next

/-- Embeds `Block::resolve_batch`: a single-child block forwards the call unchanged;
otherwise the current-alive buffer is initialised as a copy of the incoming
selection vector and the children are run through `batchLoop`. -/
def Block.resolve_batch (inner : List (Expr S V E)) (bctx : BatchContext S V E)
    (sv : List Nat) : BatchContext S V E :=
  match inner with
  | [e] => e.resolveBatch bctx sv
  | _ => (batchLoop inner bctx sv sv).1

/-- The same loop as `batchLoop`, instrumented: entry `k` of the returned
list is the pair (alive buffer handed to child `k`, batch context after
child `k` has run). -/
def batchTrace : List (Expr S V E) → BatchContext S V E → List Nat → List Nat →
    List (List Nat × BatchContext S V E)
  | [], _bctx, _sv, _this => []
  | e :: rest, bctx, sv, this =>
    let bctx' := e.resolveBatch bctx this
    let next := sv.filter (fun i => (bctx'.resolved_values i).isOk)
    (this, bctx') :: batchTrace rest bctx' sv next

/-- The fold of `Block::type_def`: threads the most recently processed
child's `TypeDef` (`last`, initially null), the running `fallible` and
`abortable` flags and the `has_terminated` flag; the `assert!` firing on a
child reached after a terminating child is modelled as `none`. -/
def typeDefLoop : List (Expr S V E) → TypeDef → Bool → Bool → Bool →
    Option (TypeDef × Bool × Bool)
  | [], last, fallible, abortable, _ => some (last, fallible, abortable)
  | e :: rest, _, fallible, abortable, hasTerminated =>
    if hasTerminated then none
    else
      let last := e.type_def
      typeDefLoop rest last (fallible || last.is_fallible)
        (abortable || last.is_abortable) (hasTerminated || last.is_never)

/-- Embeds `Block::type_def`: fold over the children from `TypeDef::null` and
all-false flags, then apply the aggregated fallibility and abortability to
the last child's `TypeDef`.  `none` models the internal-invariant panic. -/
def Block.type_def (inner : List (Expr S V E)) : Option TypeDef :=
  (typeDefLoop inner TypeDef.null false false false).map
    (fun p => (p.1.with_fallibility p.2.1).with_abortability p.2.2)

/-- Per-row equivalence between an expression's two backends: for a row `i`
named by the selection vector, `resolve_batch` leaves row `i`'s state and
resolution slot exactly as a lone `resolve` of row `i`'s record would, and
rows not named by the selection vector are left untouched. -/
def RowEquiv (e : Expr S V E) : Prop :=
  ∀ (bctx : BatchContext S V E) (sv : List Nat) (i : Nat),
    (i ∈ sv →
      e.resolve (bctx.states i) =
        ((e.resolveBatch bctx sv).states i, (e.resolveBatch bctx sv).resolved_values i)) ∧
    (i ∉ sv →
      (e.resolveBatch bctx sv).states i = bctx.states i ∧
      (e.resolveBatch bctx sv).resolved_values i = bctx.resolved_values i)

/-- The frame condition on an expression's batch backend: `resolve_batch`
only writes the resolution slots of rows named by its selection vector. -/
def WritesOnlySelected (e : Expr S V E) : Prop :=
  ∀ (bctx : BatchContext S V E) (sv : List Nat) (i : Nat),
    i ∉ sv → (e.resolveBatch bctx sv).resolved_values i = bctx.resolved_values i

/-- All-but-last children succeeding: run a list of expressions in order from
state `s`; `some` of the final state when every one returns `ok`, `none` as
soon as one errors. -/
def runOks : List (Expr S V E) → S → Option S
  | [], s => some s
  | e :: rest, s =>
    match e.resolve s with
    | (s', .ok _) => runOks rest s'
    | (_, .error _) => none

/-! ### Concrete expressions and batch contexts, used to instantiate the
theorems on closed inputs -/

/-- A concrete well-behaved expression over `S = V = E = Nat`: it returns the
current state as its value and increments the state; its batch backend does
the same row-wise on exactly the selected rows. -/
def incExpr : Expr Nat Nat Nat where
  resolve := fun s => (s + 1, .ok s)
  resolveBatch := fun b sv =>
    { states := fun i => if i ∈ sv then b.states i + 1 else b.states i,
      resolved_values := fun i => if i ∈ sv then .ok (b.states i) else b.resolved_values i }
  type_def := TypeDef.null

/-- A concrete always-failing expression (error code 7), with a matching
row-wise batch backend. -/
def failExpr : Expr Nat Nat Nat where
  resolve := fun s => (s, .error 7)
  resolveBatch := fun b sv =>
    { states := b.states,
      resolved_values := fun i => if i ∈ sv then .error 7 else b.resolved_values i }
  type_def := TypeDef.null

/-- A concrete batch expression that fails row 0 and succeeds elsewhere,
writing only selected rows. -/
def failRow0Expr : Expr Nat Nat Nat where
  resolve := fun s => (s, .error 0)
  resolveBatch := fun b sv =>
    { states := b.states,
      resolved_values := fun i =>
        if i ∈ sv then (if i = 0 then .error 0 else .ok 1) else b.resolved_values i }
  type_def := TypeDef.null

/-- A concrete frame-violating batch expression: whatever selection vector it
is handed, it overwrites row 0's slot with a success. -/
def resurrectExpr : Expr Nat Nat Nat where
  resolve := fun s => (s, .ok 2)
  resolveBatch := fun b _sv =>
    { states := b.states,
      resolved_values := fun i => if i = 0 then .ok 2 else b.resolved_values i }
  type_def := TypeDef.null

/-- A concrete expression whose behaviour is irrelevant but whose `TypeDef`
is prescribed — used to exercise `Block.type_def`. -/
def constTDExpr (td : TypeDef) : Expr Nat Nat Nat where
  resolve := fun s => (s, .ok 0)
  resolveBatch := fun b _sv => b
  type_def := td

/-- A concrete batch context: row `i` starts in state `i`, all slots hold an
error. -/
def batchW : BatchContext Nat Nat Nat where
  states := fun i => i
  resolved_values := fun _ => .error 0

/-- A concrete batch context whose row 0 slot already holds `error 5`. -/
def batchErrW : BatchContext Nat Nat Nat where
  states := fun i => i
  resolved_values := fun i => if i = 0 then .error 5 else .ok 0

/-! ### A small concrete expression language with variables

`Block::resolve` deliberately does not restore the variable scope at run
time (see the NOTE in its body): the compile-time undefined-variable check
is what makes bindings introduced inside a block unobservable afterwards.
That check lives outside the file under study, so it is modelled from the
spec here, over a minimal language with literals, variable reads,
assignments and blocks; the block cases of `VExpr.resolve` mirror
`Block::resolve` (split last / short-circuit / no scope restore, panic on
empty), and the checker restores the entry environment snapshot when a
block ends. -/

/-- Runtime variable storage of a single-record context: variable identifier
to current value. -/
def Store : Type := Nat → Option Nat

/-- Modelled from the spec: a minimal expression language — literals,
variable reads, assignments and blocks. -/
inductive VExpr where
  | lit : Nat → VExpr
  | varRead : Nat → VExpr
  | assign : Nat → VExpr → VExpr
  | block : List VExpr → VExpr

mutual

/-- Runtime resolution for `VExpr`: reading an unbound variable is a runtime
error; assignment stores the value; the block case is `Block::resolve`
verbatim — all but the last child run in order, short-circuiting on the
first error, the last child's result is returned, no scope restoration, and
an empty block is the `expect` panic (`none`). -/
def VExpr.resolve : VExpr → Store → Option (Store × Except Unit Nat)
  | .lit v, s => some (s, .ok v)
  | .varRead x, s =>
    match s x with
    | some v => some (s, .ok v)
    | none => some (s, .error ())
  | .assign x e, s =>
    match VExpr.resolve e s with
    | none => none
    | some (s', .error err) => some (s', .error err)
    | some (s', .ok v) => some (fun y => if y = x then some v else s' y, .ok v)
  | .block inner, s => VExpr.resolveList inner s

/-- The `split_last` / `try_for_each` shape of `Block::resolve`, specialised
to `VExpr` children: `none` (panic) on an empty block, the last child's
result, short-circuit on an earlier child's error. -/
def VExpr.resolveList : List VExpr → Store → Option (Store × Except Unit Nat)
  | [], _ => none
  | [e], s => VExpr.resolve e s
  | e :: e₂ :: rest, s =>
    match VExpr.resolve e s with
    | none => none
    | some (s', .error err) => some (s', .error err)
    | some (s', .ok _) => VExpr.resolveList (e₂ :: rest) s'

end

mutual

/-- Modelled from the spec: the compile-time undefined-variable check.  The
local environment is the list of bound variable identifiers; the check
returns the environment after the expression, or `none` on a reference to an
unbound variable.  Assignment binds its target for subsequent siblings; a
block checks its children in its own scope, threading bindings from sibling
to sibling, and restores the entry snapshot for the parent once the block
ends; empty blocks are a compile-time error. -/
def VExpr.check : List Nat → VExpr → Option (List Nat)
  | env, .lit _ => some env
  | env, .varRead x => if x ∈ env then some env else none
  | env, .assign x e =>
    match VExpr.check env e with
    | none => none
    | some env' => some (x :: env')
  | env, .block inner =>
    match VExpr.checkList env inner with
    | none => none
    | some _ => some env

/-- Modelled from the spec: checking the children of a block in order,
threading the environment. -/
def VExpr.checkList : List Nat → List VExpr → Option (List Nat)
  | _, [] => none
  | env, [e] => VExpr.check env e
  | env, e :: e₂ :: rest =>
    match VExpr.check env e with
    | none => none
    | some env' => VExpr.checkList env' (e₂ :: rest)

end

/-- Two stores agreeing on every variable of an environment. -/
def Agree (env : List Nat) (s₁ s₂ : Store) : Prop :=
  ∀ x ∈ env, s₁ x = s₂ x

/-- Matching outcomes of resolving one expression in two stores: the same
panic-or-result, the same `Result`, and on success stores that agree on the
checked environment. -/
def ResultsMatch (env : List Nat) :
    Option (Store × Except Unit Nat) → Option (Store × Except Unit Nat) → Prop
  | none, none => True
  | some (t₁, r₁), some (t₂, r₂) => r₁ = r₂ ∧ (∀ v, r₁ = .ok v → Agree env t₁ t₂)
  | _, _ => False

/-- Erase every binding outside `env` from a store. -/
def restrictStore (env : List Nat) (s : Store) : Store :=
  fun x => if x ∈ env then s x else none

/-- A fallible, non-abortable `TypeDef`. -/
def fallibleTD : TypeDef := { fallible := true, abortable := false, kind := .other 0 }

/-- An infallible, abortable `TypeDef`. -/
def abortTD : TypeDef := { fallible := false, abortable := true, kind := .other 1 }

/-- The "never" `TypeDef` of a terminating expression. -/
def neverTD : TypeDef := { fallible := false, abortable := false, kind := .never }

/-- The `TypeDef` a two-child block `[fallibleTD child, abortTD child]`
aggregates to. -/
def tdW : TypeDef := { fallible := true, abortable := true, kind := .other 1 }

/-- A concrete store binding only variable 0. -/
def storeW : Store := fun y => if y = 0 then some 4 else none

/-- The store `storeW` after a block additionally bound variable 1 to 7. -/
def storeW2 : Store := fun y => if y = 1 then some 7 else storeW y

/-! ### Helper lemmas about `Block.resolve` -/

theorem Block.resolve_nil (s : S) : Block.resolve ([] : List (Expr S V E)) s = none := rfl

theorem Block.resolve_single (e : Expr S V E) (s : S) :
    Block.resolve [e] s = some (e.resolve s) := rfl

theorem splitLastE_ne_nil {l : List α} (h : l ≠ []) : ∃ p, splitLastE l = some p := by
  match l with
  | [] => exact absurd rfl h
  | [a] => exact ⟨(a, []), rfl⟩
  | a :: b :: rest =>
    obtain ⟨p, hp⟩ := splitLastE_ne_nil (l := b :: rest) (by simp)
    exact ⟨(p.1, a :: p.2), by simp [splitLastE, hp]⟩

/-- Unfolding `Block.resolve` at a head child when at least one child
follows: run the head, short-circuit on its error, otherwise continue with
the remaining children. -/
theorem Block.resolve_cons (x : Expr S V E) (xs : List (Expr S V E)) (hxs : xs ≠ [])
    (s : S) :
    Block.resolve (x :: xs) s =
      (match x.resolve s with
        | (s', .ok _) => Block.resolve xs s'
        | (s', .error err) => some (s', .error err)) := by
  match xs with
  | [] => exact absurd rfl hxs
  | b :: rest =>
    obtain ⟨⟨last, other⟩, hp⟩ := splitLastE_ne_nil (l := b :: rest) (by simp)
    rcases hx : x.resolve s with ⟨s', r⟩
    rcases r with err | v <;>
      simp [Block.resolve, splitLastE, hp, resolveOthers, hx]

/-! ### Helper lemmas about `batchLoop` -/

/-- A row that is not in the current alive buffer and is either outside the
incoming selection vector or currently marked failed is never touched again
by the remaining children (given per-row-equivalent children). -/
theorem batchLoop_untouched (rest : List (Expr S V E)) (bctx : BatchContext S V E)
    (sv cur : List Nat) (i : Nat)
    (hre : ∀ e ∈ rest, RowEquiv e) (hi : i ∉ cur)
    (hdead : i ∉ sv ∨ (bctx.resolved_values i).isOk = false) :
    (batchLoop rest bctx sv cur).1.states i = bctx.states i ∧
    (batchLoop rest bctx sv cur).1.resolved_values i = bctx.resolved_values i := by
  induction rest generalizing bctx cur hi hdead with
  | nil => exact ⟨rfl, rfl⟩
  | cons e rest ih =>
    have hframe := (hre e (List.mem_cons_self e rest) bctx cur i).2 hi
    have hnext : i ∉ sv.filter (fun j => ((e.resolveBatch bctx cur).resolved_values j).isOk) := by
      intro hmem
      rcases List.mem_filter.mp hmem with ⟨hisv, hok⟩
      rcases hdead with hout | hfail
      · exact hout hisv
      · rw [hframe.2, hfail] at hok
        exact Bool.false_ne_true hok
    have hdead' : i ∉ sv ∨ ((e.resolveBatch bctx cur).resolved_values i).isOk = false := by
      rcases hdead with hout | hfail
      · exact Or.inl hout
      · exact Or.inr (by rw [hframe.2]; exact hfail)
    have hrec := ih (e.resolveBatch bctx cur)
      (sv.filter (fun j => ((e.resolveBatch bctx cur).resolved_values j).isOk))
      (fun x hx => hre x (List.mem_cons_of_mem e hx)) hnext hdead'
    have hstep : batchLoop (e :: rest) bctx sv cur
        = batchLoop rest (e.resolveBatch bctx cur) sv
            (sv.filter (fun j => ((e.resolveBatch bctx cur).resolved_values j).isOk)) := rfl
    rw [hstep]
    exact ⟨hrec.1.trans hframe.1, hrec.2.trans hframe.2⟩

/-- Row `i`, named by both the current alive buffer and the incoming
selection vector, ends `batchLoop` with exactly the state and result that
the single-record `Block.resolve` produces from row `i`'s state — given
per-row-equivalent children. -/
theorem batchLoop_row (e : Expr S V E) (rest : List (Expr S V E))
    (bctx : BatchContext S V E) (sv cur : List Nat) (i : Nat)
    (hre : ∀ x ∈ e :: rest, RowEquiv x)
    (hcur : i ∈ cur) (hsv : i ∈ sv) :
    Block.resolve (e :: rest) (bctx.states i) =
      some ((batchLoop (e :: rest) bctx sv cur).1.states i,
            (batchLoop (e :: rest) bctx sv cur).1.resolved_values i) := by
  induction rest generalizing e bctx cur hcur with
  | nil =>
    have hrow := (hre e (List.mem_cons_self e []) bctx cur i).1 hcur
    have hstep : (batchLoop [e] bctx sv cur).1 = e.resolveBatch bctx cur := rfl
    rw [hstep, Block.resolve_single, hrow]
  | cons e₂ rest ih =>
    have hrow := (hre e (List.mem_cons_self e (e₂ :: rest)) bctx cur i).1 hcur
    have hstep : batchLoop (e :: e₂ :: rest) bctx sv cur
        = batchLoop (e₂ :: rest) (e.resolveBatch bctx cur) sv
            (sv.filter (fun j => ((e.resolveBatch bctx cur).resolved_values j).isOk)) := rfl
    rw [Block.resolve_cons e (e₂ :: rest) (by simp) (bctx.states i), hrow, hstep]
    rcases hr : (e.resolveBatch bctx cur).resolved_values i with err | v
    · -- the head child failed row `i`: it drops out and is never touched again
      have hnotnext : i ∉ sv.filter
          (fun j => ((e.resolveBatch bctx cur).resolved_values j).isOk) := by
        intro hmem
        rcases List.mem_filter.mp hmem with ⟨_, hok⟩
        rw [hr] at hok
        exact Bool.false_ne_true hok
      have huntouched := batchLoop_untouched (e₂ :: rest) (e.resolveBatch bctx cur) sv
        (sv.filter (fun j => ((e.resolveBatch bctx cur).resolved_values j).isOk)) i
        (fun x hx => hre x (List.mem_cons_of_mem e hx)) hnotnext
        (Or.inr (by rw [hr]; rfl))
      rw [huntouched.1, huntouched.2, hr]
    · -- the head child succeeded on row `i`: it stays alive for the tail
      have hnext : i ∈ sv.filter
          (fun j => ((e.resolveBatch bctx cur).resolved_values j).isOk) := by
        refine List.mem_filter.mpr ⟨hsv, ?_⟩
        rw [hr]
        rfl
      exact ih e₂ (e.resolveBatch bctx cur)
        (sv.filter (fun j => ((e.resolveBatch bctx cur).resolved_values j).isOk))
        (fun x hx => hre x (List.mem_cons_of_mem e hx)) hnext

/-- C1: for every block whose children each satisfy the per-row equivalence
between their single-record and batch backends, `Block.resolve_batch` stores
in row `i`'s slot (for every `i` in the selection vector) exactly the
`Result` that `Block.resolve` produces on row `i`'s record alone — so the
outcome of row `i` is independent of the other rows, and a one-row batch
coincides with the single-record backend — and rows outside the selection
vector are left untouched. -/
theorem block_row_equivalence (inner : List (Expr S V E))
    (hre : ∀ e ∈ inner, RowEquiv e) (hne : inner ≠ [])
    (bctx : BatchContext S V E) (sv : List Nat) (i : Nat) :
    (i ∈ sv →
      Block.resolve inner (bctx.states i) =
        some ((Block.resolve_batch inner bctx sv).states i,
              (Block.resolve_batch inner bctx sv).resolved_values i)) ∧
    (i ∉ sv →
      (Block.resolve_batch inner bctx sv).states i = bctx.states i ∧
      (Block.resolve_batch inner bctx sv).resolved_values i = bctx.resolved_values i) := by
  match inner with
  | [] => exact absurd rfl hne
  | [e] =>
    have hfwd : Block.resolve_batch [e] bctx sv = e.resolveBatch bctx sv := rfl
    rw [hfwd]
    constructor
    · intro hi
      rw [Block.resolve_single, (hre e (List.mem_cons_self e []) bctx sv i).1 hi]
    · intro hi
      exact (hre e (List.mem_cons_self e []) bctx sv i).2 hi
  | e :: e₂ :: rest =>
    have hmulti : Block.resolve_batch (e :: e₂ :: rest) bctx sv
        = (batchLoop (e :: e₂ :: rest) bctx sv sv).1 := rfl
    rw [hmulti]
    constructor
    · intro hi
      exact batchLoop_row e (e₂ :: rest) bctx sv sv i hre hi hi
    · intro hi
      exact batchLoop_untouched (e :: e₂ :: rest) bctx sv sv i hre hi (Or.inl hi)

/-- If a prefix of the children all succeed, ending in state `s₁`, resolving
the whole block from `s` is resolving the remaining children from `s₁`. -/
theorem Block.resolve_append_of_runOks (pre l : List (Expr S V E)) (hl : l ≠ [])
    (s s₁ : S) (h : runOks pre s = some s₁) :
    Block.resolve (pre ++ l) s = Block.resolve l s₁ := by
  induction pre generalizing s with
  | nil =>
    have hs : s = s₁ := by simpa [runOks] using h
    rw [List.nil_append, hs]
  | cons p pre ih =>
    rcases hp : p.resolve s with ⟨s', r⟩
    rcases r with err | v
    · rw [runOks, hp] at h
      exact absurd h (by simp)
    · have h' : runOks pre s' = some s₁ := by
        rw [runOks, hp] at h
        exact h
      have happ : (p :: pre) ++ l = p :: (pre ++ l) := rfl
      have hne : pre ++ l ≠ [] := by
        intro hcon
        exact hl (List.append_eq_nil.mp hcon).2
      rw [happ, Block.resolve_cons p (pre ++ l) hne s, hp]
      exact ih s' h'

/-- C2: `Block.resolve` is strictly left-to-right and fail-fast: if the
children in `pre` all succeed (ending in state `s₁`) and the next child `a`
then errors, the block's result is `a`'s error and post-`a` state, whatever
the remaining children `rest` are (they are not evaluated); and if all
children before the last succeed, the block returns the last child's
result. -/
theorem block_resolve_fail_fast :
    (∀ (pre rest : List (Expr S V E)) (a : Expr S V E) (s s₁ : S) (err : E),
      runOks pre s = some s₁ → (a.resolve s₁).2 = .error err →
      Block.resolve (pre ++ a :: rest) s = some ((a.resolve s₁).1, .error err)) ∧
    (∀ (other : List (Expr S V E)) (last : Expr S V E) (s s₁ : S),
      runOks other s = some s₁ →
      Block.resolve (other ++ [last]) s = some (last.resolve s₁)) := by
  constructor
  · intro pre rest a s s₁ err hpre ha
    rw [Block.resolve_append_of_runOks pre (a :: rest) (by simp) s s₁ hpre]
    rcases hra : a.resolve s₁ with ⟨s₂, r₂⟩
    rw [hra] at ha
    simp only at ha
    subst ha
    match rest with
    | [] => rw [Block.resolve_single, hra]
    | b :: rest' =>
      rw [Block.resolve_cons a (b :: rest') (by simp) s₁, hra]
  · intro other last s s₁ h
    rw [Block.resolve_append_of_runOks other [last] (by simp) s s₁ h,
      Block.resolve_single]

/-- Rows outside the incoming selection vector and outside the current alive
buffer have their resolution slot preserved by the loop, provided every child
writes only the slots of rows it is handed. -/
theorem batchLoop_slot_frame (rest : List (Expr S V E)) (bctx : BatchContext S V E)
    (sv cur : List Nat) (i : Nat)
    (hw : ∀ e ∈ rest, WritesOnlySelected e) (hsv : i ∉ sv) (hcur : i ∉ cur) :
    (batchLoop rest bctx sv cur).1.resolved_values i = bctx.resolved_values i := by
  induction rest generalizing bctx cur hcur with
  | nil => rfl
  | cons e rest ih =>
    have hframe := hw e (List.mem_cons_self e rest) bctx cur i hcur
    have hnext : i ∉ sv.filter (fun j => ((e.resolveBatch bctx cur).resolved_values j).isOk) := by
      intro hmem
      exact hsv (List.mem_filter.mp hmem).1
    have hstep : batchLoop (e :: rest) bctx sv cur
        = batchLoop rest (e.resolveBatch bctx cur) sv
            (sv.filter (fun j => ((e.resolveBatch bctx cur).resolved_values j).isOk)) := rfl
    rw [hstep]
    exact (ih (e.resolveBatch bctx cur)
      (sv.filter (fun j => ((e.resolveBatch bctx cur).resolved_values j).isOk))
      (fun x hx => hw x (List.mem_cons_of_mem e hx)) hnext).trans hframe

/-- C8: `Block.resolve_batch` leaves the resolution slot of every row index
not contained in the incoming selection vector unchanged, provided each
child's `resolve_batch` likewise only writes slots of rows named by the
selection vector it is given. -/
theorem block_resolve_batch_untouched_rows (inner : List (Expr S V E))
    (bctx : BatchContext S V E) (sv : List Nat) (i : Nat)
    (hw : ∀ e ∈ inner, WritesOnlySelected e) (hi : i ∉ sv) :
    (Block.resolve_batch inner bctx sv).resolved_values i = bctx.resolved_values i := by
  match inner with
  | [] => rfl
  | [e] => exact hw e (List.mem_cons_self e []) bctx sv i hi
  | e :: e₂ :: rest =>
    have hmulti : Block.resolve_batch (e :: e₂ :: rest) bctx sv
        = (batchLoop (e :: e₂ :: rest) bctx sv sv).1 := rfl
    rw [hmulti]
    exact batchLoop_slot_frame (e :: e₂ :: rest) bctx sv sv i hw hi hi

/-- Every alive buffer recorded in the trace is a sublist of the incoming
selection vector, as soon as the initial buffer is. -/
theorem batchTrace_buffers_sublist (rest : List (Expr S V E)) (bctx : BatchContext S V E)
    (sv cur : List Nat) (hcur : cur.Sublist sv) :
    ∀ buf ∈ (batchTrace rest bctx sv cur).map Prod.fst, buf.Sublist sv := by
  induction rest generalizing bctx cur hcur with
  | nil => intro buf hbuf; simp [batchTrace] at hbuf
  | cons e rest ih =>
    intro buf hbuf
    have hstep : batchTrace (e :: rest) bctx sv cur
        = (cur, e.resolveBatch bctx cur)
            :: batchTrace rest (e.resolveBatch bctx cur) sv
                 (sv.filter (fun j => ((e.resolveBatch bctx cur).resolved_values j).isOk)) := rfl
    rw [hstep, List.map_cons] at hbuf
    rcases List.mem_cons.mp hbuf with hhead | htail
    · rw [hhead]; exact hcur
    · exact ih (e.resolveBatch bctx cur)
        (sv.filter (fun j => ((e.resolveBatch bctx cur).resolved_values j).isOk))
        (List.filter_sublist sv) buf htail

/-- The loop and its instrumented trace agree: the final batch context of
`batchLoop` is the context recorded with the last trace entry. -/
theorem batchLoop_eq_batchTrace_last (rest : List (Expr S V E)) (bctx : BatchContext S V E)
    (sv cur : List Nat) :
    (batchLoop rest bctx sv cur).1 =
      ((batchTrace rest bctx sv cur).getLast?.map Prod.snd).getD bctx := by
  induction rest generalizing bctx cur with
  | nil => rfl
  | cons e rest ih =>
    match rest with
    | [] => rfl
    | e₂ :: rest' =>
      have hstep : batchLoop (e :: e₂ :: rest') bctx sv cur
          = batchLoop (e₂ :: rest') (e.resolveBatch bctx cur) sv
              (sv.filter (fun j => ((e.resolveBatch bctx cur).resolved_values j).isOk)) := rfl
      have htr : batchTrace (e :: e₂ :: rest') bctx sv cur
          = (cur, e.resolveBatch bctx cur)
              :: batchTrace (e₂ :: rest') (e.resolveBatch bctx cur) sv
                  (sv.filter (fun j => ((e.resolveBatch bctx cur).resolved_values j).isOk)) := rfl
      have htr2 : batchTrace (e₂ :: rest') (e.resolveBatch bctx cur) sv
          (sv.filter (fun j => ((e.resolveBatch bctx cur).resolved_values j).isOk))
            = ((sv.filter (fun j => ((e.resolveBatch bctx cur).resolved_values j).isOk)),
                e₂.resolveBatch (e.resolveBatch bctx cur)
                  (sv.filter (fun j => ((e.resolveBatch bctx cur).resolved_values j).isOk)))
              :: batchTrace rest' (e₂.resolveBatch (e.resolveBatch bctx cur)
                  (sv.filter (fun j => ((e.resolveBatch bctx cur).resolved_values j).isOk))) sv
                  (sv.filter (fun j => ((e₂.resolveBatch (e.resolveBatch bctx cur)
                    (sv.filter (fun j => ((e.resolveBatch bctx cur).resolved_values j).isOk))).resolved_values j).isOk)) := rfl
      rw [hstep, ih (e.resolveBatch bctx cur)
        (sv.filter (fun j => ((e.resolveBatch bctx cur).resolved_values j).isOk)), htr]
      rw [htr2, List.getLast?_cons_cons, ← htr2, htr2, List.getLast?_cons]
      simp

/-- C10: during `Block.resolve_batch` on a multi-child block, the alive
buffer handed to each child (entry `k` of the instrumented trace, whose
first buffer is the incoming selection vector itself) is a sublist — an
in-order subset of row indices — of the incoming selection vector. -/
theorem block_resolve_batch_alive_subset (inner : List (Expr S V E))
    (bctx : BatchContext S V E) (sv : List Nat) (buf : List Nat)
    (hbuf : buf ∈ (batchTrace inner bctx sv sv).map Prod.fst) :
    buf.Sublist sv :=
  batchTrace_buffers_sublist inner bctx sv sv (List.Sublist.refl sv) buf hbuf

/-! ### Helper lemmas about `Block.type_def` -/

theorem map_getLastD (f : α → β) (l : List α) (hne : l ≠ []) (d : β) :
    (l.map f).getLastD d = f (l.getLast hne) := by
  induction l generalizing d with
  | nil => exact absurd rfl hne
  | cons a l ih =>
    match l with
    | [] => rfl
    | b :: l' =>
      have h1 : ((a :: b :: l').map f).getLastD d = ((b :: l').map f).getLastD (f a) := rfl
      have h2 : (a :: b :: l').getLast hne = (b :: l').getLast (by simp) := by
        simp [List.getLast]
      rw [h1, h2, ih (by simp) (f a)]

/-- When the fold of `Block.type_def` completes without hitting the
assertion, its flags are the initial flags OR-ed with every child's flags,
and the tracked `TypeDef` is the last child's (or the initial one for an
empty list). -/
theorem typeDefLoop_some (inner : List (Expr S V E)) (last : TypeDef) (f a t : Bool)
    (out : TypeDef × Bool × Bool) (h : typeDefLoop inner last f a t = some out) :
    out.2.1 = (f || inner.any (fun e => e.type_def.is_fallible)) ∧
    out.2.2 = (a || inner.any (fun e => e.type_def.is_abortable)) ∧
    out.1 = (inner.map (fun e => e.type_def)).getLastD last := by
  induction inner generalizing last f a t with
  | nil =>
    have hout : out = (last, f, a) := by
      have h' : some (last, f, a) = some out := h
      exact (Option.some.inj h').symm
    rw [hout]
    simp
  | cons e rest ih =>
    rcases t with _ | _
    · have h' : typeDefLoop rest e.type_def (f || e.type_def.is_fallible)
          (a || e.type_def.is_abortable) (false || e.type_def.is_never) = some out := by
        rw [typeDefLoop] at h
        simpa using h
      obtain ⟨h1, h2, h3⟩ := ih e.type_def (f || e.type_def.is_fallible)
        (a || e.type_def.is_abortable) (false || e.type_def.is_never) h'
      refine ⟨?_, ?_, ?_⟩
      · rw [h1, List.any_cons, Bool.or_assoc]
      · rw [h2, List.any_cons, Bool.or_assoc]
      · rw [h3, List.map_cons, List.getLastD_cons]
    · rw [typeDefLoop] at h
      simp at h

/-- C4: whenever `Block.type_def` returns (does not hit the internal
assertion), the fallible flag of the result is the OR of all children's
fallible flags and the abortable flag is the OR of all children's abortable
flags; in particular a block of all-infallible children is infallible. -/
theorem block_type_def_flags (inner : List (Expr S V E)) (td : TypeDef)
    (h : Block.type_def inner = some td) :
    td.fallible = inner.any (fun e => e.type_def.is_fallible) ∧
    td.abortable = inner.any (fun e => e.type_def.is_abortable) ∧
    ((∀ e ∈ inner, e.type_def.is_fallible = false) → td.fallible = false) := by
  rw [Block.type_def] at h
  rcases hout : typeDefLoop inner TypeDef.null false false false with _ | out
  · rw [hout] at h
    simp at h
  · rw [hout] at h
    have htd : td = (out.1.with_fallibility out.2.1).with_abortability out.2.2 := by
      simpa using h.symm
    obtain ⟨h1, h2, _⟩ := typeDefLoop_some inner TypeDef.null false false false out hout
    have hfall : td.fallible = out.2.1 := by
      rw [htd]
      rfl
    have habort : td.abortable = out.2.2 := by
      rw [htd]
      rfl
    refine ⟨?_, ?_, ?_⟩
    · rw [hfall, h1, Bool.false_or]
    · rw [habort, h2, Bool.false_or]
    · intro hall
      rw [hfall, h1, Bool.false_or]
      exact List.any_eq_false.mpr (fun e he => by rw [hall e he]; exact Bool.false_ne_true)

/-- The fold of `Block.type_def` hits the assertion exactly when it starts
with the terminated flag set on a non-empty list, or some child is followed
by another child after a never-typed child. -/
theorem typeDefLoop_none_iff (inner : List (Expr S V E)) (last : TypeDef) (f a t : Bool) :
    typeDefLoop inner last f a t = none ↔
      ((t = true ∧ inner ≠ []) ∨
        ∃ i, ∃ h : i + 1 < inner.length,
          (inner.get ⟨i, Nat.lt_of_succ_lt h⟩).type_def.is_never = true) := by
  induction inner generalizing last f a t with
  | nil => simp [typeDefLoop]
  | cons e rest ih =>
    rcases t with _ | _
    · have hstep : typeDefLoop (e :: rest) last f a false
          = typeDefLoop rest e.type_def (f || e.type_def.is_fallible)
              (a || e.type_def.is_abortable) (false || e.type_def.is_never) := rfl
      rw [hstep, ih]
      constructor
      · rintro (⟨hnev, hne⟩ | ⟨j, hj, hnev⟩)
        · refine Or.inr ⟨0, ?_, ?_⟩
          · have : 0 < rest.length := List.length_pos.mpr hne
            simp only [List.length_cons]
            omega
          · simpa using hnev
        · refine Or.inr ⟨j + 1, ?_, ?_⟩
          · simp only [List.length_cons]
            omega
          · simpa using hnev
      · rintro (⟨hfalse, _⟩ | ⟨i, hi, hnev⟩)
        · exact absurd hfalse (by simp)
        · match i with
          | 0 =>
            refine Or.inl ⟨by simpa using hnev, ?_⟩
            intro hcon
            rw [hcon] at hi
            simp at hi
          | j + 1 =>
            refine Or.inr ⟨j, ?_, ?_⟩
            · simp only [List.length_cons] at hi
              omega
            · simpa using hnev
    · constructor
      · intro _
        exact Or.inl ⟨rfl, by simp⟩
      · intro _
        rfl

/-- C5: `Block.type_def` halts with the internal-invariant panic exactly when
some child appears after a never-typed child; when no child follows a
never-typed child, the assertion is unreachable and `type_def` returns. -/
theorem block_type_def_panic_iff (inner : List (Expr S V E)) :
    Block.type_def inner = none ↔
      ∃ i, ∃ h : i + 1 < inner.length,
        (inner.get ⟨i, Nat.lt_of_succ_lt h⟩).type_def.is_never = true := by
  rw [Block.type_def]
  have hmap : ((typeDefLoop inner TypeDef.null false false false).map
      (fun p => (p.1.with_fallibility p.2.1).with_abortability p.2.2)) = none
      ↔ typeDefLoop inner TypeDef.null false false false = none := by
    rcases typeDefLoop inner TypeDef.null false false false with _ | out <;> simp
  rw [hmap, typeDefLoop_none_iff]
  simp

/-- C6: for every non-empty block whose `type_def` returns (no child after a
never-typed child), the returned `TypeDef` is the last child's `TypeDef`
with the aggregated fallibility and abortability flags applied. -/
theorem block_type_def_last_child (inner : List (Expr S V E)) (td : TypeDef)
    (hne : inner ≠ []) (h : Block.type_def inner = some td) :
    td = (((inner.getLast hne).type_def.with_fallibility
            (inner.any (fun e => e.type_def.is_fallible))).with_abortability
          (inner.any (fun e => e.type_def.is_abortable))) := by
  rw [Block.type_def] at h
  rcases hout : typeDefLoop inner TypeDef.null false false false with _ | out
  · rw [hout] at h
    simp at h
  · rw [hout] at h
    have htd : td = (out.1.with_fallibility out.2.1).with_abortability out.2.2 := by
      simpa using h.symm
    obtain ⟨h1, h2, h3⟩ := typeDefLoop_some inner TypeDef.null false false false out hout
    rw [htd, h1, h2, h3, map_getLastD (fun e => e.type_def) inner hne TypeDef.null,
      Bool.false_or, Bool.false_or]

/-- A non-empty block always resolves to `some` outcome: the
"at least one expression" branch is unreachable. -/
theorem Block.resolve_isSome (inner : List (Expr S V E)) (s : S) (hne : inner ≠ []) :
    (Block.resolve inner s).isSome = true := by
  induction inner generalizing s with
  | nil => exact absurd rfl hne
  | cons e rest ih =>
    rcases rest with _ | ⟨e₂, rest'⟩
    · rw [Block.resolve_single]
      rfl
    · rw [Block.resolve_cons e (e₂ :: rest') (by simp) s]
      rcases he : e.resolve s with ⟨s', r⟩
      rcases r with err | v
      · rfl
      · exact ih s' (by simp)

/-- C9: `Block.resolve` is total exactly on non-empty blocks — non-emptiness
makes the `expect` panic unreachable, while an empty block's `resolve`
panics (`none`); `Block.type_def` of an empty block instead returns the null
`TypeDef`, with both the fallible and the abortable flag `false`, raising no
error. -/
theorem block_empty_vs_nonempty (S V E : Type) :
    (∀ s : S, Block.resolve ([] : List (Expr S V E)) s = none) ∧
    (∀ (inner : List (Expr S V E)) (s : S), inner ≠ [] →
      (Block.resolve inner s).isSome = true) ∧
    Block.type_def ([] : List (Expr S V E)) = some TypeDef.null ∧
    TypeDef.null.is_fallible = false ∧ TypeDef.null.is_abortable = false :=
  ⟨fun _ => rfl, fun inner s hne => Block.resolve_isSome inner s hne, rfl, rfl, rfl⟩

/-- C3, counterexample to "the next-alive buffer contains exactly the indices
of the current-alive buffer (scanned from that same buffer) whose slot holds
a success": the code scans the ORIGINAL selection vector instead.  With
`sv = [0, 1]`, the first child fails row 0 (alive buffer shrinks to `[1]`),
the second child (whose batch backend writes outside its handed vector)
overwrites row 0's slot with a success; the buffer handed to the third child
is then `[0, 1]` — row 0 resurrected from the original vector — although
filtering the current-alive buffer `[1]` by slot success yields `[1]`. -/
theorem block_resolve_batch_scan_counterexample :
    (batchTrace [failRow0Expr, resurrectExpr, incExpr] batchW [0, 1] [0, 1]).map Prod.fst
      = [[0, 1], [1], [0, 1]] ∧
    List.filter (fun i =>
        ((resurrectExpr.resolveBatch
          (failRow0Expr.resolveBatch batchW [0, 1]) [1]).resolved_values i).isOk) [1]
      = [1] ∧
    ([0, 1] : List Nat) ≠ [1] := by
  refine ⟨rfl, rfl, by decide⟩

/-- Every consecutive pair of trace entries is linked by the code's rebuild
step: the next alive buffer is the ORIGINAL selection vector filtered by
current slot success. -/
theorem batchTrace_chain (rest : List (Expr S V E)) (bctx : BatchContext S V E)
    (sv cur : List Nat) :
    List.Chain' (fun a b => b.1 = sv.filter (fun i => ((a.2).resolved_values i).isOk))
      (batchTrace rest bctx sv cur) := by
  induction rest generalizing bctx cur with
  | nil => exact List.chain'_nil
  | cons e rest ih =>
    have hstep : batchTrace (e :: rest) bctx sv cur
        = (cur, e.resolveBatch bctx cur)
            :: batchTrace rest (e.resolveBatch bctx cur) sv
                (sv.filter (fun j => ((e.resolveBatch bctx cur).resolved_values j).isOk)) := rfl
    rw [hstep]
    refine List.chain'_cons'.mpr ⟨?_, ih (e.resolveBatch bctx cur)
      (sv.filter (fun j => ((e.resolveBatch bctx cur).resolved_values j).isOk))⟩
    intro b hb
    rcases rest with _ | ⟨e₂, rest'⟩
    · simp [batchTrace] at hb
    · have hhead : (batchTrace (e₂ :: rest') (e.resolveBatch bctx cur) sv
          (sv.filter (fun j => ((e.resolveBatch bctx cur).resolved_values j).isOk))).head?
            = some ((sv.filter (fun j => ((e.resolveBatch bctx cur).resolved_values j).isOk)),
                e₂.resolveBatch (e.resolveBatch bctx cur)
                  (sv.filter (fun j => ((e.resolveBatch bctx cur).resolved_values j).isOk))) := rfl
      rw [hhead] at hb
      rcases hb with ⟨⟩
      rfl

/-- Once a row's slot holds an error at one of the loop's rebuild points, the
remaining children (writing only their handed rows) never touch it again:
the row keeps exactly that error. -/
theorem batchLoop_err_retained (post : List (Expr S V E)) (bctx : BatchContext S V E)
    (sv : List Nat) (i : Nat) (err : E)
    (hw : ∀ e ∈ post, WritesOnlySelected e)
    (herr : bctx.resolved_values i = .error err) :
    (batchLoop post bctx sv
      (sv.filter (fun j => (bctx.resolved_values j).isOk))).1.resolved_values i
        = .error err := by
  induction post generalizing bctx herr with
  | nil => exact herr
  | cons e rest ih =>
    have hcur : i ∉ sv.filter (fun j => (bctx.resolved_values j).isOk) := by
      intro hmem
      have hok := (List.mem_filter.mp hmem).2
      rw [herr] at hok
      exact Bool.false_ne_true hok
    have hframe := hw e (List.mem_cons_self e rest) bctx
      (sv.filter (fun j => (bctx.resolved_values j).isOk)) i hcur
    have hstep : batchLoop (e :: rest) bctx sv
          (sv.filter (fun j => (bctx.resolved_values j).isOk))
        = batchLoop rest (e.resolveBatch bctx (sv.filter (fun j => (bctx.resolved_values j).isOk))) sv
            (sv.filter (fun j => ((e.resolveBatch bctx
              (sv.filter (fun j => (bctx.resolved_values j).isOk))).resolved_values j).isOk)) := rfl
    rw [hstep]
    exact ih (e.resolveBatch bctx (sv.filter (fun j => (bctx.resolved_values j).isOk)))
      (fun x hx => hw x (List.mem_cons_of_mem e hx)) (hframe.trans herr)

/-- C3 (amended): `Block.resolve_batch` forwards a single-child block
unchanged; on a multi-child block it hands the first child the incoming
selection vector itself, and after each child the next-alive buffer contains
exactly the indices of the INCOMING selection vector whose batch-context
slot holds a success; a row whose slot holds an error at a rebuild point
drops out of all subsequent children's processing and — when the remaining
children write only the slots of rows they are handed — retains exactly that
error. -/
theorem block_resolve_batch_selection_algorithm :
    (∀ (e : Expr S V E) (bctx : BatchContext S V E) (sv : List Nat),
      Block.resolve_batch [e] bctx sv = e.resolveBatch bctx sv) ∧
    (∀ (e : Expr S V E) (rest : List (Expr S V E)) (bctx : BatchContext S V E)
        (sv : List Nat),
      ((batchTrace (e :: rest) bctx sv sv).head?).map Prod.fst = some sv) ∧
    (∀ (rest : List (Expr S V E)) (bctx : BatchContext S V E) (sv cur : List Nat),
      List.Chain' (fun a b => b.1 = sv.filter (fun i => ((a.2).resolved_values i).isOk))
        (batchTrace rest bctx sv cur)) ∧
    (∀ (post : List (Expr S V E)) (bctx : BatchContext S V E) (sv : List Nat)
        (i : Nat) (err : E),
      (∀ e ∈ post, WritesOnlySelected e) → bctx.resolved_values i = .error err →
      (batchLoop post bctx sv
        (sv.filter (fun j => (bctx.resolved_values j).isOk))).1.resolved_values i
          = .error err) :=
  ⟨fun _ _ _ => rfl, fun _ _ _ _ => rfl,
   fun rest bctx sv cur => batchTrace_chain rest bctx sv cur,
   fun post bctx sv i err hw herr => batchLoop_err_retained post bctx sv i err hw herr⟩

/-! ### Scope invisibility for the concrete variable language -/

theorem ResultsMatch.mono (envA envB : List Nat) (hsub : ∀ x ∈ envA, x ∈ envB)
    (o₁ o₂ : Option (Store × Except Unit Nat))
    (h : ResultsMatch envB o₁ o₂) : ResultsMatch envA o₁ o₂ := by
  rcases o₁ with _ | ⟨t₁, r₁⟩ <;> rcases o₂ with _ | ⟨t₂, r₂⟩
  · trivial
  · exact h.elim
  · exact h.elim
  · exact ⟨h.1, fun v hv x hx => h.2 v hv x (hsub x hx)⟩

mutual

/-- The checker only ever grows the set of bound variables. -/
theorem check_subset : ∀ (f : VExpr) (env env' : List Nat),
    VExpr.check env f = some env' → ∀ x ∈ env, x ∈ env'
  | .lit _, env, env', h, x, hx => by
    rw [VExpr.check] at h
    cases h
    exact hx
  | .varRead y, env, env', h, x, hx => by
    rw [VExpr.check] at h
    by_cases hy : y ∈ env
    · rw [if_pos hy] at h
      cases h
      exact hx
    · rw [if_neg hy] at h
      exact absurd h (by simp)
  | .assign y e, env, env', h, x, hx => by
    rw [VExpr.check] at h
    rcases hc : VExpr.check env e with _ | envE
    · rw [hc] at h
      exact absurd h (by simp)
    · rw [hc] at h
      cases h
      exact List.mem_cons_of_mem y (check_subset e env envE hc x hx)
  | .block inner, env, env', h, x, hx => by
    rw [VExpr.check] at h
    rcases hc : VExpr.checkList env inner with _ | envB
    · rw [hc] at h
      exact absurd h (by simp)
    · rw [hc] at h
      cases h
      exact hx

theorem checkList_subset : ∀ (l : List VExpr) (env env' : List Nat),
    VExpr.checkList env l = some env' → ∀ x ∈ env, x ∈ env'
  | [], _, _, h, _, _ => absurd h (by rw [VExpr.checkList]; simp)
  | [e], env, env', h, x, hx => check_subset e env env' (by rw [VExpr.checkList] at h; exact h) x hx
  | e :: e₂ :: rest, env, env', h, x, hx => by
    rw [VExpr.checkList] at h
    rcases hc : VExpr.check env e with _ | env₁
    · rw [hc] at h
      exact absurd h (by simp)
    · rw [hc] at h
      exact checkList_subset (e₂ :: rest) env₁ env' h x (check_subset e env env₁ hc x hx)

end

mutual

/-- Noninterference for the checked language: a checked expression, run in
two stores that agree on every bound variable, panics identically, produces
the same `Result`, and on success leaves stores that agree on every variable
bound afterwards — so its outcome cannot depend on any unbound variable. -/
theorem resolve_ni : ∀ (f : VExpr) (env env' : List Nat) (s₁ s₂ : Store),
    VExpr.check env f = some env' → Agree env s₁ s₂ →
    ResultsMatch env' (f.resolve s₁) (f.resolve s₂)
  | .lit v, env, env', s₁, s₂, h, hag => by
    rw [VExpr.check] at h
    cases h
    exact ⟨rfl, fun _ _ => hag⟩
  | .varRead y, env, env', s₁, s₂, h, hag => by
    rw [VExpr.check] at h
    by_cases hy : y ∈ env
    · rw [if_pos hy] at h
      cases h
      have hsame : s₁ y = s₂ y := hag y hy
      rw [VExpr.resolve, VExpr.resolve, ← hsame]
      rcases s₁ y with _ | v
      · exact ⟨rfl, fun v hv => absurd hv (by simp)⟩
      · exact ⟨rfl, fun _ _ => hag⟩
    · rw [if_neg hy] at h
      exact absurd h (by simp)
  | .assign y e, env, env', s₁, s₂, h, hag => by
    rw [VExpr.check] at h
    rcases hc : VExpr.check env e with _ | envE
    · rw [hc] at h
      exact absurd h (by simp)
    · rw [hc] at h
      cases h
      have hrm := resolve_ni e env envE s₁ s₂ hc hag
      rw [VExpr.resolve, VExpr.resolve]
      rcases h₁ : e.resolve s₁ with _ | ⟨t₁, r₁⟩ <;>
        rcases h₂ : e.resolve s₂ with _ | ⟨t₂, r₂⟩ <;>
        rw [h₁, h₂] at hrm
      · trivial
      · exact hrm.elim
      · exact hrm.elim
      · obtain ⟨hr, hst⟩ := hrm
        subst hr
        rcases r₁ with err | v
        · exact ⟨rfl, fun v hv => absurd hv (by simp)⟩
        · have hagE : Agree envE t₁ t₂ := hst v rfl
          refine ⟨rfl, fun w _ => ?_⟩
          intro x hx
          rcases List.mem_cons.mp hx with hxy | hxE
          · subst hxy
            simp
          · by_cases hxy : x = y
            · subst hxy
              simp
            · simp only [if_neg hxy]
              exact hagE x hxE
  | .block inner, env, env', s₁, s₂, h, hag => by
    rw [VExpr.check] at h
    rcases hc : VExpr.checkList env inner with _ | envB
    · rw [hc] at h
      exact absurd h (by simp)
    · rw [hc] at h
      cases h
      have hrm := resolveList_ni inner env envB s₁ s₂ hc hag
      rw [VExpr.resolve, VExpr.resolve]
      exact ResultsMatch.mono env envB (checkList_subset inner env envB hc)
        (VExpr.resolveList inner s₁) (VExpr.resolveList inner s₂) hrm

theorem resolveList_ni : ∀ (l : List VExpr) (env env' : List Nat) (s₁ s₂ : Store),
    VExpr.checkList env l = some env' → Agree env s₁ s₂ →
    ResultsMatch env' (VExpr.resolveList l s₁) (VExpr.resolveList l s₂)
  | [], _, _, _, _, h, _ => absurd h (by rw [VExpr.checkList]; simp)
  | [e], env, env', s₁, s₂, h, hag => by
    rw [VExpr.checkList] at h
    rw [VExpr.resolveList, VExpr.resolveList]
    exact resolve_ni e env env' s₁ s₂ h hag
  | e :: e₂ :: rest, env, env', s₁, s₂, h, hag => by
    rw [VExpr.checkList] at h
    rcases hc : VExpr.check env e with _ | env₁
    · rw [hc] at h
      exact absurd h (by simp)
    · rw [hc] at h
      have hrm := resolve_ni e env env₁ s₁ s₂ hc hag
      rw [VExpr.resolveList, VExpr.resolveList]
      rcases h₁ : e.resolve s₁ with _ | ⟨t₁, r₁⟩ <;>
        rcases h₂ : e.resolve s₂ with _ | ⟨t₂, r₂⟩ <;>
        rw [h₁, h₂] at hrm
      · trivial
      · exact hrm.elim
      · exact hrm.elim
      · obtain ⟨hr, hst⟩ := hrm
        subst hr
        rcases r₁ with err | v
        · exact ⟨rfl, fun v hv => absurd hv (by simp)⟩
        · exact resolveList_ni (e₂ :: rest) env₁ env' t₁ t₂ h (hst v rfl)

end

/-- C7: bindings a nested block introduces are invisible afterwards.
Inference: checking a block restores the entry environment for the parent,
even though a binding made by one child (here an assignment) is visible to a
later sibling inside the same block.  Run time: `VExpr.resolve` of a block
deliberately leaves the store mutated, but any following expression `f` that
passes the undefined-variable check in the parent environment produces the
same panic-or-`Result` on the block's final store as on that store with
every binding outside the parent environment erased — so no binding
introduced inside the block is observable to code after it. -/
theorem block_scope_invisibility :
    (∀ (inner : List VExpr) (env env' : List Nat),
      VExpr.check env (VExpr.block inner) = some env' → env' = env) ∧
    (∀ (env : List Nat) (x v : Nat),
      VExpr.check env (VExpr.block [VExpr.assign x (VExpr.lit v), VExpr.varRead x])
        = some env) ∧
    (∀ (inner : List VExpr) (f : VExpr) (env envf : List Nat) (s t : Store)
        (r : Except Unit Nat),
      VExpr.check env (VExpr.block inner) = some env →
      VExpr.check env f = some envf →
      VExpr.resolve (VExpr.block inner) s = some (t, r) →
      Option.map Prod.snd (f.resolve t)
        = Option.map Prod.snd (f.resolve (restrictStore env t))) := by
  refine ⟨?_, ?_, ?_⟩
  · intro inner env env' h
    rw [VExpr.check] at h
    rcases hc : VExpr.checkList env inner with _ | envB
    · rw [hc] at h
      exact absurd h (by simp)
    · rw [hc] at h
      exact (Option.some.inj h).symm
  · intro env x v
    rw [VExpr.check]
    have h1 : VExpr.check env (VExpr.assign x (VExpr.lit v)) = some (x :: env) := by
      rw [VExpr.check, VExpr.check]
    have h2 : VExpr.checkList env
        [VExpr.assign x (VExpr.lit v), VExpr.varRead x] = some (x :: env) := by
      simp only [VExpr.checkList, h1]
      simp [VExpr.check]
    rw [h2]
  · intro inner f env envf s t r _ hcf _
    have hag : Agree env t (restrictStore env t) := by
      intro x hx
      rw [restrictStore, if_pos hx]
    have hrm := resolve_ni f env envf t (restrictStore env t) hcf hag
    rcases h₁ : f.resolve t with _ | ⟨t₁, r₁⟩ <;>
      rcases h₂ : f.resolve (restrictStore env t) with _ | ⟨t₂, r₂⟩ <;>
      rw [h₁, h₂] at hrm <;>
      first
      | rfl
      | exact hrm.elim
      | exact congrArg some hrm.1

/-! ### Concrete instantiations -/

theorem rowEquiv_incExpr : RowEquiv incExpr := by
  intro b sv i
  constructor
  · intro hi
    simp [incExpr, hi]
  · intro hi
    simp [incExpr, hi]

theorem writesOnly_incExpr : WritesOnlySelected incExpr := by
  intro b sv i hi
  simp [incExpr, hi]

/-- C1 instantiated: a two-child block of well-behaved children over a
two-row batch; row 0's slot and state match the single-record run. -/
theorem block_row_equivalence_witness :
    (∀ e ∈ [incExpr, incExpr], RowEquiv e) ∧
    ([incExpr, incExpr] ≠ []) ∧ (0 : Nat) ∈ [0, 1] ∧
    Block.resolve [incExpr, incExpr] (batchW.states 0) =
      some ((Block.resolve_batch [incExpr, incExpr] batchW [0, 1]).states 0,
            (Block.resolve_batch [incExpr, incExpr] batchW [0, 1]).resolved_values 0) := by
  have hre : ∀ e ∈ [incExpr, incExpr], RowEquiv e := by
    intro e he
    rcases List.mem_cons.mp he with h | h
    · rw [h]
      exact rowEquiv_incExpr
    · rcases List.mem_cons.mp h with h2 | h2
      · rw [h2]
        exact rowEquiv_incExpr
      · simp at h2
  exact ⟨hre, by simp, by simp,
    (block_row_equivalence [incExpr, incExpr] hre (by simp) batchW [0, 1] 0).1 (by simp)⟩

/-- C2 instantiated: `[incExpr, failExpr, incExpr]` from state 0 — the
prefix succeeds ending in 1, `failExpr` then errors with 7 and the block
stops there; without the failing child the last child's result is
returned. -/
theorem block_resolve_fail_fast_witness :
    runOks [incExpr] (0 : Nat) = some 1 ∧
    (failExpr.resolve 1).2 = .error 7 ∧
    Block.resolve ([incExpr] ++ failExpr :: [incExpr]) 0
      = some ((failExpr.resolve 1).1, .error 7) ∧
    Block.resolve ([incExpr] ++ [failExpr]) 0 = some (failExpr.resolve 1) := by
  refine ⟨rfl, rfl, ?_, ?_⟩
  · exact block_resolve_fail_fast.1 [incExpr] [incExpr] failExpr 0 1 7 rfl rfl
  · exact block_resolve_fail_fast.2 [incExpr] failExpr 0 1 rfl

/-- C3 (amended) instantiated: resuming the loop at a rebuild point where
row 0's slot holds `error 5`, a remaining frame-respecting child leaves that
error in place. -/
theorem block_resolve_batch_selection_algorithm_witness :
    (∀ e ∈ [incExpr], WritesOnlySelected e) ∧
    batchErrW.resolved_values 0 = .error 5 ∧
    (batchLoop [incExpr] batchErrW [0, 1]
      ([0, 1].filter (fun j => (batchErrW.resolved_values j).isOk))).1.resolved_values 0
        = .error 5 := by
  have hw : ∀ e ∈ [incExpr], WritesOnlySelected e := by
    intro e he
    rcases List.mem_cons.mp he with h | h
    · rw [h]
      exact writesOnly_incExpr
    · simp at h
  exact ⟨hw, rfl,
    block_resolve_batch_selection_algorithm.2.2.2 [incExpr] batchErrW [0, 1] 0 5 hw rfl⟩

/-- C4 instantiated: a block of a fallible child and an abortable child has
both flags set, each the OR over the children. -/
theorem block_type_def_flags_witness :
    Block.type_def [constTDExpr fallibleTD, constTDExpr abortTD] = some tdW ∧
    (tdW.fallible
        = [constTDExpr fallibleTD, constTDExpr abortTD].any (fun e => e.type_def.is_fallible) ∧
      tdW.abortable
        = [constTDExpr fallibleTD, constTDExpr abortTD].any (fun e => e.type_def.is_abortable) ∧
      ((∀ e ∈ [constTDExpr fallibleTD, constTDExpr abortTD], e.type_def.is_fallible = false) →
        tdW.fallible = false)) :=
  ⟨rfl, block_type_def_flags [constTDExpr fallibleTD, constTDExpr abortTD] tdW rfl⟩

/-- C5 instantiated: a child after a never-typed child makes `type_def`
panic. -/
theorem block_type_def_panic_iff_witness :
    Block.type_def [constTDExpr neverTD, constTDExpr fallibleTD] = none ∧
    (0 : Nat) + 1 < ([constTDExpr neverTD, constTDExpr fallibleTD] : List (Expr Nat Nat Nat)).length :=
  ⟨(block_type_def_panic_iff [constTDExpr neverTD, constTDExpr fallibleTD]).mpr
      ⟨0, by simp, rfl⟩,
    by simp⟩

/-- C6 instantiated: the block of a fallible then an abortable child gets the
last child's `TypeDef` with the aggregated flags. -/
theorem block_type_def_last_child_witness :
    ([constTDExpr fallibleTD, constTDExpr abortTD] : List (Expr Nat Nat Nat)) ≠ [] ∧
    Block.type_def [constTDExpr fallibleTD, constTDExpr abortTD] = some tdW ∧
    tdW = ((([constTDExpr fallibleTD, constTDExpr abortTD].getLast (by simp)).type_def.with_fallibility
            ([constTDExpr fallibleTD, constTDExpr abortTD].any (fun e => e.type_def.is_fallible))).with_abortability
          ([constTDExpr fallibleTD, constTDExpr abortTD].any (fun e => e.type_def.is_abortable))) :=
  ⟨by simp, rfl,
    block_type_def_last_child [constTDExpr fallibleTD, constTDExpr abortTD] tdW (by simp) rfl⟩

/-- C7 instantiated: a block binds variable 1 inside; checking it under the
parent environment `[0]` succeeds and restores `[0]`; the following read of
variable 0 cannot tell the block's final store from that store with the
block-introduced binding of 1 erased. -/
theorem block_scope_invisibility_witness :
    VExpr.check [0] (VExpr.block [VExpr.assign 1 (VExpr.lit 7), VExpr.lit 3]) = some [0] ∧
    VExpr.check [0] (VExpr.varRead 0) = some [0] ∧
    VExpr.resolve (VExpr.block [VExpr.assign 1 (VExpr.lit 7), VExpr.lit 3]) storeW
      = some (storeW2, .ok 3) ∧
    Option.map Prod.snd ((VExpr.varRead 0).resolve storeW2)
      = Option.map Prod.snd ((VExpr.varRead 0).resolve (restrictStore [0] storeW2)) :=
  ⟨rfl, rfl, rfl,
    block_scope_invisibility.2.2 [VExpr.assign 1 (VExpr.lit 7), VExpr.lit 3]
      (VExpr.varRead 0) [0] [0] storeW storeW2 (.ok 3) rfl rfl rfl⟩

/-- C8 instantiated: row 2 is outside the selection vector `[0, 1]` and its
slot survives a two-child block untouched. -/
theorem block_resolve_batch_untouched_rows_witness :
    (∀ e ∈ [incExpr, incExpr], WritesOnlySelected e) ∧ ((2 : Nat) ∉ [0, 1]) ∧
    (Block.resolve_batch [incExpr, incExpr] batchW [0, 1]).resolved_values 2
      = batchW.resolved_values 2 := by
  have hw : ∀ e ∈ [incExpr, incExpr], WritesOnlySelected e := by
    intro e he
    rcases List.mem_cons.mp he with h | h
    · rw [h]
      exact writesOnly_incExpr
    · rcases List.mem_cons.mp h with h2 | h2
      · rw [h2]
        exact writesOnly_incExpr
      · simp at h2
  exact ⟨hw, by decide,
    block_resolve_batch_untouched_rows [incExpr, incExpr] batchW [0, 1] 2 hw (by decide)⟩

/-- C9 instantiated: a one-child block resolves to `some`. -/
theorem block_empty_vs_nonempty_witness :
    ([incExpr] : List (Expr Nat Nat Nat)) ≠ [] ∧
    (Block.resolve [incExpr] (0 : Nat)).isSome = true :=
  ⟨by simp, (block_empty_vs_nonempty Nat Nat Nat).2.1 [incExpr] 0 (by simp)⟩

/-- C10 instantiated: the buffers of a concrete two-child run are all
sublists of the incoming selection vector. -/
theorem block_resolve_batch_alive_subset_witness :
    ([0, 1] ∈ (batchTrace [incExpr, incExpr] batchW [0, 1] [0, 1]).map Prod.fst) ∧
    List.Sublist [0, 1] [0, 1] := by
  have htr : (batchTrace [incExpr, incExpr] batchW [0, 1] [0, 1]).map Prod.fst
      = [[0, 1], [0, 1]] := rfl
  have hbuf : [0, 1] ∈ (batchTrace [incExpr, incExpr] batchW [0, 1] [0, 1]).map Prod.fst := by
    rw [htr]
    simp
  exact ⟨hbuf, block_resolve_batch_alive_subset [incExpr, incExpr] batchW [0, 1] [0, 1] hbuf⟩

end VrlBlock
